import Mathlib

/-!
Verification of the Sonara audio analyzer core
(`scripts/analyze_audio.py`, with `scripts/reference_signals.py`).

The Python code is shallowly embedded: audio buffers become lists over a
linear ordered field (`ℚ` where every operation of the modelled function is
exact arithmetic and comparisons, `ℝ` where the function uses `sqrt`, `log10`,
`2**x` or the FFT), numpy index arithmetic becomes `ℕ` arithmetic, and the
two `raise ValueError` sites of the pipeline become an `Except` error type.
-/

namespace Sonara

/-! ### Generic list helpers -/

/-- Largest absolute value in a list, `0` for the empty list.
Models the value `np.max(np.abs(l))` that `np.argmax(np.abs(l))` searches for. -/
def maxAbs {α : Type*} [LinearOrderedField α] (l : List α) : α :=
  (l.map (fun x => |x|)).foldr max 0

/-- `np.argmax(np.abs(l))`: the first index whose absolute value is maximal
(numpy returns the first occurrence of the maximum). Total: `l.length` when the
list is empty (numpy raises there; callers in the code always pass non-empty data). -/
def argmaxAbs {α : Type*} [LinearOrderedField α] (l : List α) : ℕ :=
  l.findIdx (fun x => decide (maxAbs l ≤ |x|))

/-- Python slice `l[a:b]` for already-clamped bounds `0 ≤ a`, `b ≤ len(l)`. -/
def pySlice {α : Type*} (l : List α) (a b : ℕ) : List α :=
  (l.drop a).take (b - a)

/-- Python stride `l[::step]` for `step ≥ 1`: keep the head, then skip
`step - 1` elements, and so on. -/
def everyNth {α : Type*} (step : ℕ) : List α → List α
  | [] => []
  | x :: xs => x :: everyNth step (xs.drop (step - 1))
termination_by l => l.length
decreasing_by simp; omega

/-! ### `FrequencyAnalyzer.extract_impulse_window` -/

/-- `FrequencyAnalyzer.extract_impulse_window`: find the peak of `|impulse|`
and slice `impulse[max(0, peak-pre) : min(len, peak+post)]` with
`pre = int(0.1 * sample_rate)` and `post = int(0.4 * sample_rate)`
(100 ms before and 400 ms after the peak, per the code comment).
`int()` truncation of the exact products `0.1·sr` and `0.4·sr` is modelled as
`sr / 10` and `2 * sr / 5` in `ℕ`; `max(0, ·)` is `ℕ` truncated subtraction. -/
def extract_impulse_window {α : Type*} [LinearOrderedField α]
    (impulse : List α) (sample_rate : ℕ) : List α :=
  let peak_idx := argmaxAbs impulse
  let pre_samples := sample_rate / 10
  let post_samples := 2 * sample_rate / 5
  pySlice impulse (peak_idx - pre_samples) (min impulse.length (peak_idx + post_samples))

/-! ### `FrequencyAnalyzer.normalize_response` -/

/-- Smallest element of a list (`0` for the empty list, where numpy would raise). -/
def listMin {α : Type*} [LinearOrderedField α] : List α → α
  | [] => 0
  | x :: xs => xs.foldl min x

/-- `np.argmin(np.abs(frequencies - self.reference_freq))` with
`reference_freq = 1000`: first index minimising the distance to 1 kHz. -/
def refIndex {α : Type*} [LinearOrderedField α] (frequencies : List α) : ℕ :=
  let dists := frequencies.map (fun f => |f - 1000|)
  dists.findIdx (fun d => decide (d ≤ listMin dists))

/-- `FrequencyAnalyzer.normalize_response`: subtract the response at the bin
nearest 1 kHz from every element. Out-of-range reads are modelled by `getD · 0`
(the pipeline always passes aligned non-empty arrays). -/
def normalize_response {α : Type*} [LinearOrderedField α]
    (frequencies response_db : List α) : List α :=
  let ref_level := response_db.getD (refIndex frequencies) 0
  response_db.map (fun x => x - ref_level)

/-! #### basic facts about the helpers -/

theorem maxAbs_le_abs_of_mem {α : Type*} [LinearOrderedField α] {l : List α}
    (h : l ≠ []) : ∃ x ∈ l, maxAbs l ≤ |x| := by
  induction l with
  | nil => exact absurd rfl h
  | cons y ys ih =>
    have hstep : maxAbs (y :: ys) = max |y| (maxAbs ys) := rfl
    rcases le_or_lt (maxAbs ys) |y| with hy | hy
    · exact ⟨y, List.mem_cons_self y ys, by rw [hstep]; exact max_le le_rfl hy⟩
    · have hys : ys ≠ [] := by
        rintro rfl
        have : maxAbs ([] : List α) = 0 := rfl
        rw [this] at hy
        exact absurd (hy.trans_le (abs_nonneg y)) (lt_irrefl _)
      obtain ⟨x, hx, hmax⟩ := ih hys
      exact ⟨x, List.mem_cons_of_mem y hx, by rw [hstep]; exact le_trans (max_le hy.le le_rfl) hmax⟩

theorem abs_le_maxAbs_of_mem {α : Type*} [LinearOrderedField α] {l : List α} {x : α}
    (h : x ∈ l) : |x| ≤ maxAbs l := by
  induction l with
  | nil => cases h
  | cons y ys ih =>
    have hstep : maxAbs (y :: ys) = max |y| (maxAbs ys) := rfl
    rcases List.mem_cons.mp h with rfl | hmem
    · rw [hstep]; exact le_max_left _ _
    · rw [hstep]; exact le_trans (ih hmem) (le_max_right _ _)

theorem argmaxAbs_lt_length {α : Type*} [LinearOrderedField α] {l : List α}
    (h : l ≠ []) : argmaxAbs l < l.length := by
  obtain ⟨x, hx, hmax⟩ := maxAbs_le_abs_of_mem h
  exact List.findIdx_lt_length_of_exists ⟨x, hx, decide_eq_true hmax⟩

theorem maxAbs_le_argmaxAbs_elem {α : Type*} [LinearOrderedField α] {l : List α}
    (h : l ≠ []) : maxAbs l ≤ |l.getD (argmaxAbs l) 0| := by
  have hlt : argmaxAbs l < l.length := argmaxAbs_lt_length h
  have := @List.findIdx_getElem _ (fun x => decide (maxAbs l ≤ |x|)) l hlt
  rw [List.getD_eq_getElem l 0 hlt]
  exact of_decide_eq_true this

theorem everyNth_sublist {α : Type*} (step : ℕ) (l : List α) :
    (everyNth step l).Sublist l := by
  have key : ∀ (n : ℕ) (l : List α), l.length ≤ n → (everyNth step l).Sublist l := by
    intro n
    induction n with
    | zero =>
      intro l hl
      rw [List.length_eq_zero.mp (Nat.le_zero.mp hl)]
      simp [everyNth]
    | succ n ih =>
      intro l hl
      cases l with
      | nil => simp [everyNth]
      | cons x xs =>
        rw [everyNth]
        refine List.Sublist.cons₂ x ?_
        have hdrop : (xs.drop (step - 1)).Sublist xs := List.drop_sublist _ _
        have hlen : (xs.drop (step - 1)).length ≤ n := by
          simp at hl ⊢; omega
        exact (ih _ hlen).trans hdrop
  exact key l.length l le_rfl

/-! ### `AudioAnalyzer.calculate_room_modes`

The code reads `room_length`, `room_width`, `room_height` (default 0), bails
out with `[]` unless all three are truthy (non-zero), collects axial,
tangential and oblique first-order modes with `c = 343.0`, filters to
`[20, 300]`, sorts ascending and keeps the first 8.  The dimensions are used
as given (no feet→meter conversion appears in the code). -/

/-- `sorted(l)` on real values. -/
noncomputable def sortAsc (l : List ℝ) : List ℝ :=
  l.mergeSort (fun a b => decide (a ≤ b))

/-- `AudioAnalyzer.calculate_room_modes`, for the three dimensions stored in
`room_data` (each defaulting to 0). `not all([length, width, height])` is
Python truthiness: it holds exactly when some dimension equals zero. -/
noncomputable def calculate_room_modes (length width height : ℝ) : List ℝ :=
  if length = 0 ∨ width = 0 ∨ height = 0 then []
  else
    let c : ℝ := 343.0
    let modes : List ℝ :=
      (if 0 < length then [c / (2 * length)] else []) ++
      (if 0 < width then [c / (2 * width)] else []) ++
      (if 0 < height then [c / (2 * height)] else []) ++
      (if 0 < length ∧ 0 < width then [c / (2 * Real.sqrt (length ^ 2 + width ^ 2))] else []) ++
      (if 0 < length ∧ 0 < height then [c / (2 * Real.sqrt (length ^ 2 + height ^ 2))] else []) ++
      (if 0 < width ∧ 0 < height then [c / (2 * Real.sqrt (width ^ 2 + height ^ 2))] else []) ++
      (if 0 < length ∧ 0 < width ∧ 0 < height then
        [c / (2 * Real.sqrt (length ^ 2 + width ^ 2 + height ^ 2))] else [])
    (sortAsc (modes.filter (fun m => decide (20 ≤ m ∧ m ≤ 300)))).take 8

/-! ### `FrequencyAnalyzer.deconvolve_signals`

`scipy.signal.fftconvolve(recorded, inverse_filter, mode='full')` is the full
discrete linear convolution: output index `j` sums `recorded[i] *
inverse_filter[j-i]`, indices outside either list contributing zero
(modelled by `getD · 0`), and the output has `N + M - 1` entries. -/

noncomputable def deconvolve_signals (recorded inverse_filter : List ℝ) : List ℝ :=
  (List.range (recorded.length + inverse_filter.length - 1)).map (fun j =>
    ∑ i ∈ Finset.range (j + 1), recorded.getD i 0 * inverse_filter.getD (j - i) 0)

/-! ### discrete Fourier transform (for the spec's deconvolution formula and
for `np.fft.rfft` in the spectrum extractor) -/

/-- Coefficient `k` of the `n`-point DFT of `a` (zero-padded). -/
noncomputable def dftCoeff (a : List ℂ) (n k : ℕ) : ℂ :=
  ∑ j ∈ Finset.range n, a.getD j 0 * Complex.exp (-(2 * Real.pi * Complex.I * k * j) / n)

/-- Coefficient `j` of the `n`-point inverse DFT of `a`. -/
noncomputable def idftCoeff (a : List ℂ) (n j : ℕ) : ℂ :=
  (∑ k ∈ Finset.range n, a.getD k 0 * Complex.exp ((2 * Real.pi * Complex.I * k * j) / n)) / n

/-- The deconvolver that the spec describes (regularized spectral division,
`H[k] = Y[k]·conj(X[k]) / (|X[k]|² + λ)`, result `Re(IFFT(H))` of length
`n = N + M - 1`), stated here only to compare it against the code's
`deconvolve_signals`. -/
noncomputable def specDeconvolve (recorded reference : List ℝ) (lam : ℝ) : List ℝ :=
  let n := recorded.length + reference.length - 1
  let Y := fun k => dftCoeff (recorded.map Complex.ofReal) n k
  let X := fun k => dftCoeff (reference.map Complex.ofReal) n k
  let H := (List.range n).map (fun k =>
    Y k * (starRingEnd ℂ) (X k) / (((Complex.abs (X k)) ^ 2 : ℝ) + lam))
  (List.range n).map (fun j => (idftCoeff H n j).re)

/-! ### `FrequencyAnalyzer.apply_fractional_octave_smoothing` -/

/-- The bins whose frequency lies in `[center/factor, center·factor]` with
`factor = 2 ** (frac / 2)`: the `in_band` mask of the code, paired with the
corresponding dB values (`frequencies` and `magnitude_db` are aligned numpy
arrays in the code). -/
noncomputable def inBand (frequencies magnitude_db : List ℝ) (frac center_freq : ℝ) :
    List (ℝ × ℝ) :=
  let factor : ℝ := (2 : ℝ) ^ ((frac / 2 : ℝ))
  (frequencies.zip magnitude_db).filter (fun p =>
    decide (center_freq / factor ≤ p.1 ∧ p.1 ≤ center_freq * factor))

/-- The smoothing branch of the code: `linear_values = 10 ** (dB / 20)`,
`rms_linear = sqrt(mean(linear_values ** 2))`, result
`20 * log10(rms_linear + 1e-12)`. -/
noncomputable def bandValue (band : List (ℝ × ℝ)) : ℝ :=
  let linear_values := band.map (fun p => (10 : ℝ) ^ ((p.2 / 20 : ℝ)))
  let rms_linear := Real.sqrt ((linear_values.map (fun x => x ^ 2)).sum / (band.length : ℝ))
  20 * Real.logb 10 (rms_linear + 1e-12)

/-- One entry of the smoothed array: pass-through below 20 Hz, pass-through
when no bin falls in the band (`np.any(in_band)` false), otherwise the RMS
branch. -/
noncomputable def smoothedAt (frequencies magnitude_db : List ℝ) (frac : ℝ) (i : ℕ) : ℝ :=
  let center_freq := frequencies.getD i 0
  if center_freq < 20 then magnitude_db.getD i 0
  else
    let band := inBand frequencies magnitude_db frac center_freq
    if band = [] then magnitude_db.getD i 0
    else bandValue band

/-- `FrequencyAnalyzer.apply_fractional_octave_smoothing` with the analyzer's
`smoothing_fraction = 1/12`: `smoothed = np.zeros_like(magnitude_db)` filled
by the loop over `enumerate(frequencies)`. -/
noncomputable def apply_fractional_octave_smoothing (frequencies magnitude_db : List ℝ) :
    List ℝ :=
  (List.range magnitude_db.length).map (fun i =>
    if i < frequencies.length then smoothedAt frequencies magnitude_db (1 / 12) i else 0)

/-- The value the spec's sentence assigns to a smoothed bin: dB→power
(`10^(dB/10)`), arithmetic mean, and back; stated only to compare with the
code's RMS branch. -/
noncomputable def specSmoothedValue (band : List (ℝ × ℝ)) : ℝ :=
  10 * Real.logb 10 ((band.map (fun p => (10 : ℝ) ^ ((p.2 / 10 : ℝ)))).sum / (band.length : ℝ) + 1e-12)

/-! ### `FrequencyAnalyzer.impulse_to_frequency_response` and the pipeline -/

/-- `scipy.signal.get_window('blackmanharris', N)` (periodic form, the
`get_window` default `fftbins=True`): the four-term cosine window. -/
noncomputable def blackmanharris (N : ℕ) : List ℝ :=
  (List.range N).map (fun n =>
    0.35875 - 0.48829 * Real.cos (2 * Real.pi * n / N)
      + 0.14128 * Real.cos (4 * Real.pi * n / N)
      - 0.01168 * Real.cos (6 * Real.pi * n / N))

/-- `FrequencyAnalyzer.impulse_to_frequency_response` with
`fft_size = 32768`: window the impulse, take the real FFT zero-padded to
32768 points, convert to dB (`20·log10(|X| + 1e-12)`), and keep the bins with
`20 ≤ f ≤ 20000`. Returned as aligned (frequency, dB) pairs. -/
noncomputable def impulse_to_frequency_response (impulse : List ℝ) (sample_rate : ℕ) :
    List (ℝ × ℝ) :=
  let windowed := impulse.zipWith (· * ·) (blackmanharris impulse.length)
  ((List.range (32768 / 2 + 1)).map (fun k =>
    (((k * sample_rate : ℕ) : ℝ) / 32768,
      20 * Real.logb 10 (Complex.abs (dftCoeff (windowed.map Complex.ofReal) 32768 k) + 1e-12)))).filter
    (fun p => decide (20 ≤ p.1 ∧ p.1 ≤ 20000))

/-- The reference data `ReferenceSignalManager.get_signal_data` returns for a
known id: the cached inverse-filter samples (and the reference sample rate). -/
structure RefData where
  inverse_signal : List ℝ
  sample_rate : ℕ

/-- The failure modes of `FrequencyAnalyzer.analyze_sweep_deconvolution`: the
two `raise ValueError` sites (unknown signal id; recorded file failed to
load), the uncaught numpy `ValueError` that `np.argmax`/`np.argmin` raise on
an empty array (reaching the caller's `except` like any other error), plus
the `InvalidRecording` kind that the spec's error taxonomy names (the code
never produces it). -/
inductive AnalysisError where
  | unknownSignal
  | loadFailure
  | emptyArrayReduce
  | invalidRecording

/-- `FrequencyAnalyzer.analyze_sweep_deconvolution`: look up the reference
(`None` ⇒ unknown signal), load the recording (failure ⇒ load error), then
deconvolve → window → spectrum → smooth → normalize, with no length check.
The recorded audio is modelled as `Option (samples × sample_rate)`.
Two numpy raise sites are modelled as errors, at the pipeline level because
the embedded per-stage functions are total: `np.argmax(np.abs(impulse))` in
`extract_impulse_window` raises exactly when the impulse is empty, which
happens exactly when the recording or the inverse filter is empty (scipy's
`fftconvolve` returns an empty array when either input is empty); and
`np.argmin` in `normalize_response` raises exactly when the audible mask
kept no frequency bin (the list `pairs` is empty, e.g. for any sample rate
below 40 Hz) — the smoothing step in between runs fine on empty arrays. -/
noncomputable def analyze_sweep_deconvolution (ref_data : Option RefData)
    (recorded : Option (List ℝ × ℕ)) : Except AnalysisError (List ℝ × List ℝ) :=
  match ref_data with
  | none => .error .unknownSignal
  | some ref =>
    match recorded with
    | none => .error .loadFailure
    | some (samples, sr) =>
      if samples = [] ∨ ref.inverse_signal = [] then .error .emptyArrayReduce
      else
        let impulse_response := deconvolve_signals samples ref.inverse_signal
        let impulse_windowed := extract_impulse_window impulse_response sr
        let pairs := impulse_to_frequency_response impulse_windowed sr
        if pairs = [] then .error .emptyArrayReduce
        else
          let freqs := pairs.map Prod.fst
          let response_db := pairs.map Prod.snd
          let smooth_response := apply_fractional_octave_smoothing freqs response_db
          let final_response := normalize_response freqs smooth_response
          .ok (freqs, final_response)

/-- The frequencies that `main` serializes into `frequency_data`: the
pipeline's frequency array downsampled by `step = max(1, len(frequencies) //
800)` (the dB values are strided by the same step, so the frequencies of
`frequency_data` are exactly this list). -/
noncomputable def downsampledFrequencies (impulse : List ℝ) (sample_rate : ℕ) : List ℝ :=
  let freqs := (impulse_to_frequency_response impulse sample_rate).map Prod.fst
  everyNth (max 1 (freqs.length / 800)) freqs

/-! ## Claims -/

/-! ### C4: room-mode calculation with a zero dimension -/

/-- C4 (counterexample): for dimensions `length = 0, width = 12, height = 0`
the room-mode calculator returns the empty list, not a single axial mode at
46.89 Hz: `not all([length, width, height])` makes any zero dimension bail
out, and no feet→meter conversion happens. -/
theorem room_modes_degenerate_nil : calculate_room_modes 0 12 0 = [] := by
  unfold calculate_room_modes
  rw [if_pos (Or.inl rfl)]

/-- C4 (amended): whenever a dimension is zero, `calculate_room_modes`
returns `[]`: the zero dimension suppresses all modes, not only the modes
that would require it. -/
theorem room_modes_zero_dim_nil (L W H : ℝ) (h : L = 0 ∨ W = 0 ∨ H = 0) :
    calculate_room_modes L W H = [] := by
  unfold calculate_room_modes
  rw [if_pos h]

/-- Witness for `room_modes_zero_dim_nil` at the dimensions of the claim. -/
theorem room_modes_zero_dim_nil_witness :
    ((0 : ℝ) = 0 ∨ (12 : ℝ) = 0 ∨ (0 : ℝ) = 0) ∧ calculate_room_modes 0 12 0 = [] :=
  ⟨Or.inl rfl, room_modes_zero_dim_nil 0 12 0 (Or.inl rfl)⟩

/-! ### C7: normalization is idempotent -/

theorem normalize_getD_refIndex (freqs resp : List ℝ) :
    (normalize_response freqs resp).getD (refIndex freqs) 0 = 0 := by
  unfold normalize_response
  rcases lt_or_le (refIndex freqs) resp.length with hi | hi
  · have hmap : refIndex freqs < (resp.map (fun x => x - resp.getD (refIndex freqs) 0)).length := by
      simpa using hi
    rw [List.getD_eq_getElem _ _ hmap, List.getElem_map, ← List.getD_eq_getElem _ 0 hi]
    exact sub_self _
  · exact List.getD_eq_default _ _ (by simpa using hi)

/-- C7 (confirmed): normalization is idempotent, because one application
already makes the bin nearest 1 kHz exactly 0 dB (stated for the non-empty
frequency arrays on which `np.argmin` is defined). -/
theorem normalize_response_idempotent (freqs resp : List ℝ) (_h : freqs ≠ []) :
    normalize_response freqs (normalize_response freqs resp) = normalize_response freqs resp ∧
    (normalize_response freqs resp).getD (refIndex freqs) 0 = 0 := by
  refine ⟨?_, normalize_getD_refIndex freqs resp⟩
  have hzero := normalize_getD_refIndex freqs resp
  conv_lhs => rw [normalize_response]
  rw [hzero]
  simp

/-- Witness for `normalize_response_idempotent` on a concrete pair. -/
theorem normalize_response_idempotent_witness :
    (([1000] : List ℝ) ≠ []) ∧
    (normalize_response ([1000] : List ℝ) (normalize_response [1000] [5]) =
        normalize_response ([1000] : List ℝ) [5] ∧
      (normalize_response ([1000] : List ℝ) [5]).getD (refIndex ([1000] : List ℝ)) 0 = 0) :=
  ⟨by simp, normalize_response_idempotent [1000] [5] (by simp)⟩

/-! ### C3: the impulse window is 100 ms + 400 ms, not 50 ms + 400 ms -/

set_option maxRecDepth 10000 in
/-- C3 (counterexample): at `sample_rate = 100` and an impulse whose peak sits
at index 10, the code's window (`pre = int(0.1·sr) = 10`) differs from the
claimed window (`pre = round(0.05·sr) = 5`, `post = round(0.4·sr) = 40`). -/
theorem extract_window_ne_fifty_ms :
    extract_impulse_window ([9, 0, 0, 0, 0, 0, 0, 0, 0, 0, 10, 0, 0, 0, 0, 0] : List ℚ) 100 ≠
      pySlice ([9, 0, 0, 0, 0, 0, 0, 0, 0, 0, 10, 0, 0, 0, 0, 0] : List ℚ)
        (argmaxAbs ([9, 0, 0, 0, 0, 0, 0, 0, 0, 0, 10, 0, 0, 0, 0, 0] : List ℚ) - 5)
        (min 16 (argmaxAbs ([9, 0, 0, 0, 0, 0, 0, 0, 0, 0, 10, 0, 0, 0, 0, 0] : List ℚ) + 40)) := by
  decide

/-- C3 (amended): the windower slices
`impulse[max(0, p - int(0.1·sr)) : min(len, p + int(0.4·sr))]` around the
peak `p` (here restated through `take`/`drop` commutation), so the windowed
impulse holds at most `int(0.1·sr) + int(0.4·sr)` samples — at most 500 ms,
not 450 ms. -/
theorem extract_window_hundred_ms (impulse : List ℚ) (sr : ℕ) :
    extract_impulse_window impulse sr =
      (impulse.take (min impulse.length (argmaxAbs impulse + 2 * sr / 5))).drop
        (argmaxAbs impulse - sr / 10) ∧
    (extract_impulse_window impulse sr).length ≤ sr / 10 + 2 * sr / 5 := by
  constructor
  · show pySlice impulse _ _ = _
    rw [pySlice, List.drop_take]
  · show (pySlice impulse _ _).length ≤ _
    rw [pySlice]
    simp only [List.length_take, List.length_drop]
    generalize argmaxAbs impulse = p
    generalize sr / 10 = a
    generalize 2 * sr / 5 = b
    omega

/-! ### C9: the window is a non-empty slice containing the peak -/

/-- C9 (confirmed): for a non-empty impulse and `sample_rate ≥ 3`,
`extract_impulse_window` returns a non-empty contiguous slice of its input
that contains the element of maximal absolute value. -/
theorem extract_window_peak_slice (impulse : List ℚ) (sr : ℕ)
    (h1 : impulse ≠ []) (h2 : 3 ≤ sr) :
    extract_impulse_window impulse sr ≠ [] ∧
    extract_impulse_window impulse sr <:+: impulse ∧
    impulse.getD (argmaxAbs impulse) 0 ∈ extract_impulse_window impulse sr ∧
    ∀ x ∈ impulse, |x| ≤ |impulse.getD (argmaxAbs impulse) 0| := by
  have hp : argmaxAbs impulse < impulse.length := argmaxAbs_lt_length h1
  have hpost : 1 ≤ 2 * sr / 5 := by omega
  set p := argmaxAbs impulse with hpdef
  set start := p - sr / 10 with hstart
  set endi := min impulse.length (p + 2 * sr / 5) with hendi
  have hw : extract_impulse_window impulse sr =
      (impulse.drop start).take (endi - start) := rfl
  have hs : start ≤ p := Nat.sub_le _ _
  have he : p < endi := by omega
  have hjw : p - start < ((impulse.drop start).take (endi - start)).length := by
    simp only [List.length_take, List.length_drop]; omega
  have helem : ((impulse.drop start).take (endi - start))[p - start] = impulse[p] := by
    rw [List.getElem_take, List.getElem_drop]
    congr 1
    omega
  refine ⟨?_, ?_, ?_, ?_⟩
  · rw [hw, ← List.length_pos]
    omega
  · exact ⟨impulse.take start, (impulse.drop start).drop (endi - start), by
      rw [hw, List.append_assoc, List.take_append_drop, List.take_append_drop]⟩
  · rw [hw, List.getD_eq_getElem _ 0 hp]
    exact helem ▸ List.getElem_mem hjw
  · intro x hx
    exact le_trans (abs_le_maxAbs_of_mem hx) (maxAbs_le_argmaxAbs_elem h1)

/-- Witness for `extract_window_peak_slice` on a concrete impulse. -/
theorem extract_window_peak_slice_witness :
    (([1, 2] : List ℚ) ≠ [] ∧ 3 ≤ 3) ∧
    (extract_impulse_window ([1, 2] : List ℚ) 3 ≠ [] ∧
      extract_impulse_window ([1, 2] : List ℚ) 3 <:+: [1, 2] ∧
      ([1, 2] : List ℚ).getD (argmaxAbs ([1, 2] : List ℚ)) 0 ∈
        extract_impulse_window ([1, 2] : List ℚ) 3 ∧
      ∀ x ∈ ([1, 2] : List ℚ), |x| ≤ |([1, 2] : List ℚ).getD (argmaxAbs ([1, 2] : List ℚ)) 0|) :=
  ⟨⟨by decide, by decide⟩, extract_window_peak_slice [1, 2] 3 (by decide) (by decide)⟩

/-! ### C6: no length validation in the pipeline -/

/-- At 44.1 kHz the audible mask keeps at least the bin `k = 100`
(`100·44100/32768 ≈ 134.6 Hz`), whatever the impulse is, so the
`np.argmin` in `normalize_response` has a non-empty array to work on. -/
theorem audible_pairs_nonempty_44100 (impulse : List ℝ) :
    impulse_to_frequency_response impulse 44100 ≠ [] := by
  simp only [impulse_to_frequency_response]
  refine List.ne_nil_of_mem (List.mem_filter.mpr ⟨List.mem_map.mpr
    ⟨100, List.mem_range.mpr (by norm_num), rfl⟩, decide_eq_true ?_⟩)
  constructor <;> norm_num

/-- C6 (counterexample): a recording (1 sample) shorter than the reference's
inverse filter (2 samples), at the reference's own 44.1 kHz rate, is not
rejected — the pipeline returns a result instead of any `InvalidRecording`
error. -/
theorem short_recording_produces_result :
    ∃ p, analyze_sweep_deconvolution (some ⟨[1, 2], 44100⟩) (some ([1], 44100))
      = Except.ok p := by
  have h1 : ¬(([1] : List ℝ) = [] ∨ ([1, 2] : List ℝ) = []) := by simp
  have h2 := audible_pairs_nonempty_44100
    (extract_impulse_window (deconvolve_signals [1] [1, 2]) 44100)
  simp only [analyze_sweep_deconvolution, if_neg h1, if_neg h2]
  exact ⟨_, rfl⟩

/-- C6 (amended): `analyze_sweep_deconvolution` never checks the recording's
length and has no `InvalidRecording` error: once the reference data and the
recorded audio both load, with the recording and the inverse filter
non-empty and the audible mask non-empty for the recording's sample rate
(all true in real use — the numpy `argmax`/`argmin` calls raise on those
degenerate inputs), the pipeline produces a result whatever the lengths
are; its remaining failures are exactly the unknown-signal and failed-load
`ValueError`s. -/
theorem analyze_no_length_check (ref : RefData) (samples : List ℝ) (sr : ℕ)
    (hs : samples ≠ []) (hinv : ref.inverse_signal ≠ [])
    (hmask : impulse_to_frequency_response
      (extract_impulse_window (deconvolve_signals samples ref.inverse_signal) sr) sr ≠ []) :
    (analyze_sweep_deconvolution (some ref) (some (samples, sr))).isOk = true ∧
    analyze_sweep_deconvolution (some ref) (some (samples, sr)) ≠
      Except.error AnalysisError.invalidRecording ∧
    (∀ rc, analyze_sweep_deconvolution none rc = .error .unknownSignal) ∧
    analyze_sweep_deconvolution (some ref) none = .error .loadFailure := by
  have hok : (analyze_sweep_deconvolution (some ref) (some (samples, sr))).isOk = true := by
    simp only [analyze_sweep_deconvolution]
    rw [if_neg (not_or.mpr ⟨hs, hinv⟩), if_neg hmask]
    rfl
  refine ⟨hok, ?_, fun _ => rfl, rfl⟩
  intro h
  rw [h] at hok
  exact Bool.noConfusion hok

/-- Witness for `analyze_no_length_check` at the counterexample's input (a
1-sample recording against a 2-sample inverse filter at 44.1 kHz). -/
theorem analyze_no_length_check_witness :
    (([1] : List ℝ) ≠ [] ∧ (RefData.mk [1, 2] 44100).inverse_signal ≠ [] ∧
      impulse_to_frequency_response
        (extract_impulse_window
          (deconvolve_signals [1] (RefData.mk [1, 2] 44100).inverse_signal) 44100) 44100 ≠ []) ∧
    ((analyze_sweep_deconvolution (some (RefData.mk [1, 2] 44100)) (some ([1], 44100))).isOk
        = true ∧
      analyze_sweep_deconvolution (some (RefData.mk [1, 2] 44100)) (some ([1], 44100)) ≠
        Except.error AnalysisError.invalidRecording ∧
      (∀ rc, analyze_sweep_deconvolution none rc = .error .unknownSignal) ∧
      analyze_sweep_deconvolution (some (RefData.mk [1, 2] 44100)) none
        = .error .loadFailure) :=
  ⟨⟨by simp, by simp, audible_pairs_nonempty_44100 _⟩,
    analyze_no_length_check (RefData.mk [1, 2] 44100) [1] 44100 (by simp) (by simp)
      (audible_pairs_nonempty_44100 _)⟩

/-! ### C2: the deconvolver is a plain convolution, not regularized division -/

/-- C2 (counterexample): for `recorded = [1]` and reference `[1]`, the code's
`fftconvolve` result `[1]` differs from the spec's regularized spectral
division with `λ = 1e-3`, which yields `[1 / 1.001]`. -/
theorem deconvolve_ne_regularized_division :
    deconvolve_signals [1] [1] ≠ specDeconvolve [1] [1] (1e-3) := by
  have h1 : List.range 1 = [0] := rfl
  have hL : deconvolve_signals [1] [1] = [1] := by
    simp [deconvolve_signals, h1, Finset.sum_range_one]
  have hR : specDeconvolve [1] [1] (1e-3) = [1 / (1 + 1e-3 : ℝ)] := by
    simp [specDeconvolve, idftCoeff, dftCoeff]
    norm_num [Complex.ext_iff]
  rw [hL, hR]
  intro h
  have := List.head_eq_of_cons_eq h
  norm_num at this

/-- C2 (amended): `deconvolve_signals` is the full discrete linear
convolution of the recording with the inverse filter — entry `j` is
`Σ_{0 ≤ i < N, i ≤ j, j - i < M} recorded[i]·inverse[j-i]` — and the output
has length `N + M - 1`; no spectral division and no `λ` appear. -/
theorem deconvolve_full_convolution (recorded inverse_filter : List ℝ) :
    (deconvolve_signals recorded inverse_filter).length
        = recorded.length + inverse_filter.length - 1 ∧
    ∀ j, (deconvolve_signals recorded inverse_filter).getD j 0 =
      ∑ i ∈ Finset.range recorded.length,
        if i ≤ j ∧ j - i < inverse_filter.length then
          recorded.getD i 0 * inverse_filter.getD (j - i) 0
        else 0 := by
  constructor
  · simp [deconvolve_signals]
  · intro j
    rcases lt_or_le j (recorded.length + inverse_filter.length - 1) with hj | hj
    · have hget : (deconvolve_signals recorded inverse_filter).getD j 0 =
          ∑ i ∈ Finset.range (j + 1), recorded.getD i 0 * inverse_filter.getD (j - i) 0 := by
        rw [deconvolve_signals, List.getD_eq_getElem _ 0 (by simpa using hj),
          List.getElem_map, List.getElem_range]
      rw [hget]
      have h1 : ∑ i ∈ Finset.range (j + 1), recorded.getD i 0 * inverse_filter.getD (j - i) 0
          = ∑ i ∈ Finset.range (j + 1),
              (if i ≤ j then recorded.getD i 0 * inverse_filter.getD (j - i) 0 else 0) := by
        refine Finset.sum_congr rfl fun i hi => ?_
        rw [Finset.mem_range] at hi
        rw [if_pos (by omega)]
      have h2 : ∑ i ∈ Finset.range (j + 1),
            (if i ≤ j then recorded.getD i 0 * inverse_filter.getD (j - i) 0 else 0)
          = ∑ i ∈ Finset.range (max (j + 1) recorded.length),
              (if i ≤ j then recorded.getD i 0 * inverse_filter.getD (j - i) 0 else 0) := by
        refine Finset.sum_subset (Finset.range_subset.mpr (le_max_left _ _)) fun x _ hx => ?_
        rw [Finset.mem_range] at hx
        rw [if_neg (by omega)]
      have h4 : ∑ i ∈ Finset.range recorded.length,
            (if i ≤ j then recorded.getD i 0 * inverse_filter.getD (j - i) 0 else 0)
          = ∑ i ∈ Finset.range (max (j + 1) recorded.length),
              (if i ≤ j then recorded.getD i 0 * inverse_filter.getD (j - i) 0 else 0) := by
        refine Finset.sum_subset (Finset.range_subset.mpr (le_max_right _ _)) fun x hx hnx => ?_
        rw [Finset.mem_range] at hnx
        have hx0 : recorded.getD x 0 = 0 := List.getD_eq_default recorded 0 (by omega)
        rw [hx0]
        simp
      have h3 : ∀ i ∈ Finset.range recorded.length,
          (if i ≤ j ∧ j - i < inverse_filter.length then
            recorded.getD i 0 * inverse_filter.getD (j - i) 0 else 0)
            = (if i ≤ j then recorded.getD i 0 * inverse_filter.getD (j - i) 0 else 0) := by
        intro i _
        by_cases hij : i ≤ j
        · by_cases hm : j - i < inverse_filter.length
          · rw [if_pos ⟨hij, hm⟩, if_pos hij]
          · rw [if_neg (by tauto), if_pos hij,
              List.getD_eq_default inverse_filter 0 (by omega), mul_zero]
        · rw [if_neg (by tauto), if_neg hij]
      rw [h1, h2, ← h4, Finset.sum_congr rfl h3]
    · have hzero : (deconvolve_signals recorded inverse_filter).getD j 0 = 0 :=
        List.getD_eq_default _ _ (by simp [deconvolve_signals]; omega)
      rw [hzero]
      symm
      refine Finset.sum_eq_zero fun i hi => ?_
      rw [Finset.mem_range] at hi
      rw [if_neg (by omega)]

/-! ### C5: room-mode list invariants -/

theorem sortFilterTake_props (l : List ℝ) :
    ((sortAsc (l.filter (fun m => decide (20 ≤ m ∧ m ≤ 300)))).take 8).Sorted (· ≤ ·) ∧
    (∀ m ∈ (sortAsc (l.filter (fun m => decide (20 ≤ m ∧ m ≤ 300)))).take 8,
      20 ≤ m ∧ m ≤ 300) ∧
    ((sortAsc (l.filter (fun m => decide (20 ≤ m ∧ m ≤ 300)))).take 8).length ≤ 8 := by
  refine ⟨?_, ?_, ?_⟩
  · exact List.Pairwise.sublist (List.take_sublist _ _) (List.sorted_mergeSort' _)
  · intro m hm
    have hm2 : m ∈ sortAsc (l.filter (fun m => decide (20 ≤ m ∧ m ≤ 300))) :=
      (List.take_sublist _ _).subset hm
    have hm3 : m ∈ l.filter (fun m => decide (20 ≤ m ∧ m ≤ 300)) :=
      ((List.mergeSort_perm _ _).mem_iff).mp hm2
    exact of_decide_eq_true (List.mem_filter.mp hm3).2
  · rw [List.length_take]
    exact inf_le_left

/-- C5 (amended): the room-mode list is sorted in non-decreasing order (not
necessarily strictly: equal dimensions give duplicate modes), every entry
lies in `[20, 300]` Hz, and the list holds at most 8 entries.  The code has
no `2^(1/6)` spacing-based thinning and caps at 8, not 5. -/
theorem room_modes_invariants (L W H : ℝ) :
    (calculate_room_modes L W H).Sorted (· ≤ ·) ∧
    (∀ m ∈ calculate_room_modes L W H, 20 ≤ m ∧ m ≤ 300) ∧
    (calculate_room_modes L W H).length ≤ 8 := by
  have key : calculate_room_modes L W H = [] ∨
      ∃ l : List ℝ, calculate_room_modes L W H =
        (sortAsc (l.filter (fun m => decide (20 ≤ m ∧ m ≤ 300)))).take 8 := by
    unfold calculate_room_modes
    by_cases h : L = 0 ∨ W = 0 ∨ H = 0
    · left; rw [if_pos h]
    · right; exact ⟨_, by rw [if_neg h]⟩
  rcases key with h | ⟨l, h⟩
  · rw [h]
    exact ⟨List.sorted_nil, by simp, by simp⟩
  · rw [h]
    exact sortFilterTake_props l

theorem div343_range {d : ℝ} (h2 : 2 ≤ d) (h17 : d ≤ 17) :
    20 ≤ 343 / d ∧ 343 / d ≤ 300 := by
  constructor
  · rw [le_div_iff₀ (by linarith)]
    linarith
  · rw [div_le_iff₀ (by linarith)]
    linarith

/-- C5 (counterexample): a cubical room of side 3 (meters, as the code uses
the dimensions) yields seven kept modes — more than the claimed cap of 5,
with equal entries (consecutive ratio 1 < 2^(1/6)). -/
theorem room_modes_cube_seven : (calculate_room_modes 3 3 3).length = 7 := by
  have h18l : (4 : ℝ) < Real.sqrt 18 := by
    have h : (4 : ℝ) = Real.sqrt 16 := by
      rw [show (16 : ℝ) = 4 ^ 2 by norm_num, Real.sqrt_sq (by norm_num)]
    rw [h]
    exact Real.sqrt_lt_sqrt (by norm_num) (by norm_num)
  have h18u : Real.sqrt 18 < 5 := by
    have h : (5 : ℝ) = Real.sqrt 25 := by
      rw [show (25 : ℝ) = 5 ^ 2 by norm_num, Real.sqrt_sq (by norm_num)]
    rw [h]
    exact Real.sqrt_lt_sqrt (by norm_num) (by norm_num)
  have h27l : (5 : ℝ) < Real.sqrt 27 := by
    have h : (5 : ℝ) = Real.sqrt 25 := by
      rw [show (25 : ℝ) = 5 ^ 2 by norm_num, Real.sqrt_sq (by norm_num)]
    rw [h]
    exact Real.sqrt_lt_sqrt (by norm_num) (by norm_num)
  have h27u : Real.sqrt 27 < 6 := by
    have h : (6 : ℝ) = Real.sqrt 36 := by
      rw [show (36 : ℝ) = 6 ^ 2 by norm_num, Real.sqrt_sq (by norm_num)]
    rw [h]
    exact Real.sqrt_lt_sqrt (by norm_num) (by norm_num)
  have hmodes : calculate_room_modes 3 3 3 =
      (sortAsc ((([343 / 6, 343 / 6, 343 / 6,
          343 / (2 * Real.sqrt 18), 343 / (2 * Real.sqrt 18), 343 / (2 * Real.sqrt 18),
          343 / (2 * Real.sqrt 27)] : List ℝ)).filter
        (fun m => decide (20 ≤ m ∧ m ≤ 300)))).take 8 := by
    unfold calculate_room_modes
    rw [if_neg (by norm_num)]
    norm_num
  have hbounds : ∀ m ∈ ([343 / 6, 343 / 6, 343 / 6,
      343 / (2 * Real.sqrt 18), 343 / (2 * Real.sqrt 18), 343 / (2 * Real.sqrt 18),
      343 / (2 * Real.sqrt 27)] : List ℝ), 20 ≤ m ∧ m ≤ 300 := by
    intro m hm
    simp only [List.mem_cons, List.not_mem_nil, or_false] at hm
    rcases hm with rfl | rfl | rfl | rfl | rfl | rfl | rfl
    · exact div343_range (by norm_num) (by norm_num)
    · exact div343_range (by norm_num) (by norm_num)
    · exact div343_range (by norm_num) (by norm_num)
    · exact div343_range (by linarith) (by linarith)
    · exact div343_range (by linarith) (by linarith)
    · exact div343_range (by linarith) (by linarith)
    · exact div343_range (by linarith) (by linarith)
  have hfilt : (([343 / 6, 343 / 6, 343 / 6,
      343 / (2 * Real.sqrt 18), 343 / (2 * Real.sqrt 18), 343 / (2 * Real.sqrt 18),
      343 / (2 * Real.sqrt 27)] : List ℝ)).filter
        (fun m => decide (20 ≤ m ∧ m ≤ 300)) =
      ([343 / 6, 343 / 6, 343 / 6,
      343 / (2 * Real.sqrt 18), 343 / (2 * Real.sqrt 18), 343 / (2 * Real.sqrt 18),
      343 / (2 * Real.sqrt 27)] : List ℝ) :=
    List.filter_eq_self.mpr fun a ha => decide_eq_true (hbounds a ha)
  rw [hmodes, hfilt, List.length_take, sortAsc, (List.mergeSort_perm _ _).length_eq]
  rfl

/-! ### C8: output frequencies are ascending and inside the audible band -/

/-- C8 (confirmed): for any windowed impulse and positive sample rate, the
frequencies that `main` puts in `frequency_data` — the masked FFT bins,
downsampled by `max(1, len // 800)` — satisfy `20 ≤ f ≤ 20000` and are
strictly ascending. -/
theorem downsampled_frequencies_sound (impulse : List ℝ) (sr : ℕ) (hsr : 0 < sr) :
    (downsampledFrequencies impulse sr).Pairwise (· < ·) ∧
    ∀ f ∈ downsampledFrequencies impulse sr, 20 ≤ f ∧ f ≤ 20000 := by
  have hpairs : (impulse_to_frequency_response impulse sr).Pairwise (fun p q => p.1 < q.1) := by
    simp only [impulse_to_frequency_response]
    refine List.Pairwise.sublist (List.filter_sublist _) ?_
    rw [List.pairwise_map]
    refine (List.pairwise_lt_range _).imp ?_
    intro a b hab
    show ((a * sr : ℕ) : ℝ) / 32768 < ((b * sr : ℕ) : ℝ) / 32768
    rw [div_lt_div_iff_of_pos_right (by norm_num)]
    exact_mod_cast (Nat.mul_lt_mul_right hsr).mpr hab
  have hmem : ∀ p ∈ impulse_to_frequency_response impulse sr, 20 ≤ p.1 ∧ p.1 ≤ 20000 := by
    intro p hp
    simp only [impulse_to_frequency_response] at hp
    exact of_decide_eq_true (List.mem_filter.mp hp).2
  constructor
  · show (everyNth _ ((impulse_to_frequency_response impulse sr).map Prod.fst)).Pairwise (· < ·)
    refine List.Pairwise.sublist (everyNth_sublist _ _) ?_
    rw [List.pairwise_map]
    exact hpairs
  · intro f hf
    have hf2 : f ∈ (impulse_to_frequency_response impulse sr).map Prod.fst :=
      (everyNth_sublist _ _).subset hf
    obtain ⟨p, hp, rfl⟩ := List.mem_map.mp hf2
    exact hmem p hp

/-- Witness for `downsampled_frequencies_sound` at a one-sample impulse and
44.1 kHz. -/
theorem downsampled_frequencies_sound_witness :
    0 < 44100 ∧
    ((downsampledFrequencies [1] 44100).Pairwise (· < ·) ∧
      ∀ f ∈ downsampledFrequencies [1] 44100, 20 ≤ f ∧ f ≤ 20000) :=
  ⟨by decide, downsampled_frequencies_sound [1] 44100 (by decide)⟩

/-! ### C10 and C1: the smoothing band and the smoothed value -/

theorem self_mem_inBand (freqs mags : List ℝ) {frac : ℝ} (hfrac : 0 ≤ frac) {i : ℕ}
    (hi : i < freqs.length) (hlen : freqs.length = mags.length)
    (h20 : 20 ≤ freqs.getD i 0) :
    (freqs.getD i 0, mags.getD i 0) ∈ inBand freqs mags frac (freqs.getD i 0) := by
  have hfach : (1 : ℝ) ≤ (2 : ℝ) ^ ((frac / 2 : ℝ)) :=
    Real.one_le_rpow (by norm_num) (by linarith)
  have hc0 : (0 : ℝ) ≤ freqs.getD i 0 := by linarith
  have him : i < mags.length := hlen ▸ hi
  have hiz : i < (freqs.zip mags).length := by
    rw [List.length_zip, hlen, min_self]
    exact him
  have hzel : (freqs.zip mags)[i] = (freqs[i], mags[i]) := List.getElem_zip
  simp only [inBand]
  refine List.mem_filter.mpr ⟨?_, ?_⟩
  · rw [List.getD_eq_getElem _ 0 hi, List.getD_eq_getElem _ 0 him]
    exact hzel ▸ List.getElem_mem hiz
  · exact decide_eq_true ⟨div_le_self hc0 hfach, le_mul_of_one_le_right hc0 hfach⟩

theorem smoothedAt_band (freqs mags : List ℝ) {frac : ℝ} {i : ℕ}
    (hfrac : 0 ≤ frac) (hi : i < freqs.length) (hlen : freqs.length = mags.length)
    (h20 : 20 ≤ freqs.getD i 0) :
    inBand freqs mags frac (freqs.getD i 0) ≠ [] ∧
    smoothedAt freqs mags frac i = bandValue (inBand freqs mags frac (freqs.getD i 0)) := by
  have hne : inBand freqs mags frac (freqs.getD i 0) ≠ [] :=
    List.ne_nil_of_mem (self_mem_inBand freqs mags hfrac hi hlen h20)
  refine ⟨hne, ?_⟩
  simp only [smoothedAt]
  rw [if_neg (not_lt.mpr h20), if_neg hne]

/-- C10 (confirmed): for any bin whose center frequency `f_i ≥ 20` is an
actual entry of the (aligned) frequency array and any `smoothing_fraction ≥
0`, the band `[f_i/factor, f_i·factor]` contains `f_i` itself, so the
`in_band` set is non-empty and the pass-through fallback branch is not
taken. -/
theorem smoothing_band_nonempty (freqs mags : List ℝ) (frac : ℝ) (i : ℕ)
    (hfrac : 0 ≤ frac) (hi : i < freqs.length) (hlen : freqs.length = mags.length)
    (h20 : 20 ≤ freqs.getD i 0) :
    inBand freqs mags frac (freqs.getD i 0) ≠ [] ∧
    smoothedAt freqs mags frac i = bandValue (inBand freqs mags frac (freqs.getD i 0)) :=
  smoothedAt_band freqs mags hfrac hi hlen h20

/-- Witness for `smoothing_band_nonempty` on a one-bin spectrum at 20 Hz. -/
theorem smoothing_band_nonempty_witness :
    ((0 : ℝ) ≤ 0 ∧ 0 < ([20] : List ℝ).length ∧ (20 : ℝ) ≤ ([20] : List ℝ).getD 0 0) ∧
    (inBand [20] [0] 0 (([20] : List ℝ).getD 0 0) ≠ [] ∧
      smoothedAt [20] [0] 0 0 = bandValue (inBand [20] [0] 0 (([20] : List ℝ).getD 0 0))) :=
  ⟨⟨le_refl 0, by decide, by show (20 : ℝ) ≤ 20; norm_num⟩,
    smoothing_band_nonempty [20] [0] 0 0 (le_refl 0) (by decide) rfl
      (by show (20 : ℝ) ≤ 20; norm_num)⟩

/-- C1 (amended): for an in-range bin `f_i ≥ 20` of an aligned spectrum, the
smoother returns `20·log10(sqrt(mean) + 1e-12)` where `mean` is the
arithmetic mean of the in-band powers `10^(dB/10)` — the `1e-12` guard is
added to the RMS amplitude `sqrt(mean)` before the single `20·log10`, not to
the power mean inside a `10·log10`. -/
theorem smoothing_rms_of_power_mean (freqs mags : List ℝ) (i : ℕ)
    (hi : i < freqs.length) (hlen : freqs.length = mags.length)
    (h20 : 20 ≤ freqs.getD i 0) :
    (apply_fractional_octave_smoothing freqs mags).getD i 0 =
      20 * Real.logb 10 (Real.sqrt
        (((inBand freqs mags (1 / 12) (freqs.getD i 0)).map
            (fun p => (10 : ℝ) ^ ((p.2 / 10 : ℝ)))).sum /
          ((inBand freqs mags (1 / 12) (freqs.getD i 0)).length : ℝ)) + 1e-12) := by
  have him : i < mags.length := hlen ▸ hi
  have happ : (apply_fractional_octave_smoothing freqs mags).getD i 0
      = smoothedAt freqs mags (1 / 12) i := by
    simp only [apply_fractional_octave_smoothing]
    rw [List.getD_eq_getElem _ 0 (by simpa using him), List.getElem_map, List.getElem_range,
      if_pos hi]
  rw [happ, (smoothedAt_band freqs mags (by norm_num) hi hlen h20).2]
  simp only [bandValue]
  have hmaps : (((inBand freqs mags (1 / 12) (freqs.getD i 0)).map
        (fun p => (10 : ℝ) ^ ((p.2 / 20 : ℝ)))).map (fun x => x ^ 2))
      = (inBand freqs mags (1 / 12) (freqs.getD i 0)).map
          (fun p => (10 : ℝ) ^ ((p.2 / 10 : ℝ))) := by
    rw [List.map_map]
    refine List.map_congr_left fun p _ => ?_
    show ((10 : ℝ) ^ ((p.2 / 20 : ℝ))) ^ 2 = (10 : ℝ) ^ ((p.2 / 10 : ℝ))
    rw [← Real.rpow_natCast ((10 : ℝ) ^ ((p.2 / 20 : ℝ))) 2,
      ← Real.rpow_mul (by norm_num : (0 : ℝ) ≤ 10)]
    norm_num
    ring_nf
  rw [hmaps]

/-- Witness for `smoothing_rms_of_power_mean` on a one-bin spectrum at 1 kHz. -/
theorem smoothing_rms_of_power_mean_witness :
    (0 < ([1000] : List ℝ).length ∧ (20 : ℝ) ≤ ([1000] : List ℝ).getD 0 0) ∧
    (apply_fractional_octave_smoothing [1000] [0]).getD 0 0 =
      20 * Real.logb 10 (Real.sqrt
        (((inBand [1000] [0] (1 / 12) (([1000] : List ℝ).getD 0 0)).map
            (fun p => (10 : ℝ) ^ ((p.2 / 10 : ℝ)))).sum /
          ((inBand [1000] [0] (1 / 12) (([1000] : List ℝ).getD 0 0)).length : ℝ)) + 1e-12) :=
  ⟨⟨by decide, by show (20 : ℝ) ≤ 1000; norm_num⟩,
    smoothing_rms_of_power_mean [1000] [0] 0 (by decide) rfl
      (by show (20 : ℝ) ≤ 1000; norm_num)⟩

/-- C1 (counterexample): on the one-bin spectrum `frequencies = [1000]`,
`magnitude_db = [-240]`, the smoother returns
`20·log10(10⁻¹² + 10⁻¹²) ≈ -234 dB`, while the claimed
`10·log10(mean + 1e-12)` with `mean = 10⁻²⁴` is `≈ -120 dB`. -/
theorem smoothing_ne_spec_power_mean :
    apply_fractional_octave_smoothing [1000] [-240] ≠
      [specSmoothedValue (inBand [1000] [-240] (1 / 12) 1000)] := by
  have h20 : (20 : ℝ) ≤ ([1000] : List ℝ).getD 0 0 := by show (20 : ℝ) ≤ 1000; norm_num
  have he : (1e-12 : ℝ) = (10 : ℝ) ^ (-(12 : ℝ)) := by
    rw [Real.rpow_neg (by norm_num), show ((12 : ℝ)) = ((12 : ℕ) : ℝ) by norm_num,
      Real.rpow_natCast]
    norm_num
  have hfach : (1 : ℝ) ≤ (2 : ℝ) ^ ((1 / 12 / 2 : ℝ)) :=
    Real.one_le_rpow (by norm_num) (by norm_num)
  have hband : inBand [1000] [-240] (1 / 12) 1000 = [((1000 : ℝ), (-240 : ℝ))] := by
    simp only [inBand]
    have hz : ([1000] : List ℝ).zip ([-240] : List ℝ) = [((1000 : ℝ), (-240 : ℝ))] := by simp
    rw [hz, List.filter_cons, if_pos]
    · rfl
    · exact decide_eq_true ⟨div_le_self (by norm_num) hfach,
        le_mul_of_one_le_right (by norm_num) hfach⟩
  have happ : apply_fractional_octave_smoothing [1000] [-240]
      = [smoothedAt [1000] [-240] (1 / 12) 0] := by
    have h1 : List.range 1 = [0] := rfl
    simp only [apply_fractional_octave_smoothing, List.length_cons, List.length_nil, h1,
      List.map_cons, List.map_nil]
    rw [if_pos (by decide)]
  have hsm : smoothedAt [1000] [-240] (1 / 12) 0
      = bandValue [((1000 : ℝ), (-240 : ℝ))] := by
    rw [(smoothedAt_band [1000] [-240] (by norm_num) (by decide) rfl h20).2]
    show bandValue (inBand [1000] [-240] (1 / 12) 1000) = _
    rw [hband]
  have hb : bandValue [((1000 : ℝ), (-240 : ℝ))]
      = 20 * Real.logb 10 ((10 : ℝ) ^ (-(12 : ℝ)) + (10 : ℝ) ^ (-(12 : ℝ))) := by
    simp only [bandValue, List.map_cons, List.map_nil, List.sum_cons, List.sum_nil,
      List.length_cons, List.length_nil, zero_add, add_zero, Nat.cast_one, div_one]
    rw [show ((-240 : ℝ) / 20) = -(12 : ℝ) by norm_num,
      ← Real.rpow_natCast ((10 : ℝ) ^ (-(12 : ℝ))) 2,
      ← Real.rpow_mul (by norm_num : (0 : ℝ) ≤ 10)]
    rw [show ((-(12 : ℝ)) * ((2 : ℕ) : ℝ)) = -(24 : ℝ) by norm_num]
    rw [show ((10 : ℝ) ^ (-(24 : ℝ))) = ((10 : ℝ) ^ (-(12 : ℝ))) ^ 2 by
      rw [← Real.rpow_natCast ((10 : ℝ) ^ (-(12 : ℝ))) 2,
        ← Real.rpow_mul (by norm_num : (0 : ℝ) ≤ 10)]
      norm_num]
    rw [Real.sqrt_sq (Real.rpow_nonneg (by norm_num) _), he]
  have hs : specSmoothedValue [((1000 : ℝ), (-240 : ℝ))]
      = 10 * Real.logb 10 ((10 : ℝ) ^ (-(24 : ℝ)) + (10 : ℝ) ^ (-(12 : ℝ))) := by
    simp only [specSmoothedValue, List.map_cons, List.map_nil, List.sum_cons, List.sum_nil,
      List.length_cons, List.length_nil, zero_add, add_zero, Nat.cast_one, div_one]
    rw [show ((-240 : ℝ) / 10) = -(24 : ℝ) by norm_num, he]
  have hlt1 : 20 * Real.logb 10 ((10 : ℝ) ^ (-(12 : ℝ)) + (10 : ℝ) ^ (-(12 : ℝ))) < -220 := by
    have hp : (0 : ℝ) < (10 : ℝ) ^ (-(12 : ℝ)) := Real.rpow_pos_of_pos (by norm_num) _
    have hx : (10 : ℝ) ^ (-(12 : ℝ)) + (10 : ℝ) ^ (-(12 : ℝ)) < (10 : ℝ) ^ (-(11 : ℝ)) := by
      have h11 : (10 : ℝ) ^ (-(11 : ℝ)) = 10 * (10 : ℝ) ^ (-(12 : ℝ)) := by
        rw [show (-(11 : ℝ)) = 1 + -(12 : ℝ) by norm_num, Real.rpow_add (by norm_num),
          Real.rpow_one]
      rw [h11]
      nlinarith
    have hlog : Real.logb 10 ((10 : ℝ) ^ (-(12 : ℝ)) + (10 : ℝ) ^ (-(12 : ℝ)))
        < Real.logb 10 ((10 : ℝ) ^ (-(11 : ℝ))) :=
      Real.logb_lt_logb (by norm_num) (by linarith) hx
    rw [Real.logb_rpow (by norm_num) (by norm_num)] at hlog
    linarith
  have hgt2 : (-120 : ℝ) < 10 * Real.logb 10 ((10 : ℝ) ^ (-(24 : ℝ)) + (10 : ℝ) ^ (-(12 : ℝ))) := by
    have hp : (0 : ℝ) < (10 : ℝ) ^ (-(24 : ℝ)) := Real.rpow_pos_of_pos (by norm_num) _
    have hx : (10 : ℝ) ^ (-(12 : ℝ)) < (10 : ℝ) ^ (-(24 : ℝ)) + (10 : ℝ) ^ (-(12 : ℝ)) :=
      lt_add_of_pos_left _ hp
    have hlog : Real.logb 10 ((10 : ℝ) ^ (-(12 : ℝ)))
        < Real.logb 10 ((10 : ℝ) ^ (-(24 : ℝ)) + (10 : ℝ) ^ (-(12 : ℝ))) :=
      Real.logb_lt_logb (by norm_num) (Real.rpow_pos_of_pos (by norm_num) _) hx
    rw [Real.logb_rpow (by norm_num) (by norm_num)] at hlog
    linarith
  rw [happ, hsm, hband]
  intro h
  have hhead := List.head_eq_of_cons_eq h
  rw [hb, hs] at hhead
  linarith [hhead ▸ hlt1]

end Sonara
